import Mathlib

/-!
Shallow embedding of `markov_chain_build.py` (classes `MarkovChain` and
`CoreProbabilityMatrix`).

Conventions of the embedding:
* numpy float64 values are modelled as exact rationals `ℚ`;
* numpy 1-d arrays are `List ℚ`, 2-d arrays are `List (List ℚ)`;
* a Python `assert` that fails is modelled as an `Except.error` carrying a
  name for the role the assertion plays in the spec's error taxonomy;
* the nondeterministic draw of `np.random.choice` is modelled by an oracle
  `us : ℕ → ℚ` supplying, for each step, the uniform value in `[0,1)` that
  numpy's inverse-CDF sampling consumes.
-/

namespace MakeMarkov

abbrev Vec := List ℚ

abbrev Mat := List (List ℚ)

/-- Error taxonomy: each constructor names the role a raised
`AssertionError`/`ValueError` plays in the spec. -/
inductive MCError where
  | invalidAlphabet
  | unknownSymbol
  | invalidDistribution
  | emptyModel
  | valueError
deriving DecidableEq, Repr

instance {ε α : Type} [DecidableEq ε] [DecidableEq α] : DecidableEq (Except ε α) :=
  fun a b =>
    match a, b with
    | .error e1, .error e2 =>
      if h : e1 = e2 then isTrue (congrArg Except.error h)
      else isFalse (fun hc => h (Except.error.inj hc))
    | .error _, .ok _ => isFalse (fun hc => Except.noConfusion hc)
    | .ok _, .error _ => isFalse (fun hc => Except.noConfusion hc)
    | .ok x, .ok y =>
      if h : x = y then isTrue (congrArg Except.ok h)
      else isFalse (fun hc => h (Except.ok.inj hc))

/-- `abs` for the numpy tolerance test, written with an `if` so that concrete
instances reduce inside the kernel. -/
def qabs (x : ℚ) : ℚ := if x < 0 then -x else x

/-- numpy's tolerance in `np.random.choice`'s "probabilities do not sum to 1"
check: `sqrt(eps(float64)) = 2 ^ (-26)`. -/
def atol : ℚ := 1 / 67108864

/-- Index selected by numpy's inverse-CDF weighted sampling: the number of
normalized cumulative sums that are `≤ u` (`searchsorted(side='right')` on
`cdf / cdf[-1]`). -/
def cdfPick (p : Vec) (u : ℚ) : ℕ :=
  ((List.range p.length).filter (fun k => decide ((p.take (k + 1)).sum / p.sum ≤ u))).length

/-- Model of `np.random.choice(alphabet, 1, p=p)` at uniform draw `u`:
numpy checks that `p` matches the population size, has no negative entry and
sums to 1 within `atol`, then renormalizes the cumulative sums and picks by
binary search on `u`. -/
def npChoice {α : Type} (alphabet : List α) (p : Vec) (u : ℚ) : Except MCError α :=
  if p.length ≠ alphabet.length then .error .valueError
  else if ¬ (∀ q ∈ p, 0 ≤ q) then .error .valueError
  else if atol < qabs (p.sum - 1) then .error .valueError
  else
    match alphabet.get? (cdfPick p u) with
    | some x => .ok x
    | none => .error .valueError

/-- The state owned by Python class `CoreProbabilityMatrix`: the count matrix
`_core_mat` and the per-row normalizer `_mat_normalizer` (stored in the source
as an `(n,1)` column; here as a flat list of the rows' values). -/
structure CoreProbabilityMatrix where
  core_mat : Mat
  mat_normalizer : Vec
deriving DecidableEq, Repr

/-- `CoreProbabilityMatrix.__init__`: `np.zeros((n,n))` and `np.ones(n)`. -/
def CoreProbabilityMatrix.init (n : ℕ) : CoreProbabilityMatrix :=
  { core_mat := List.replicate n (List.replicate n 0)
    mat_normalizer := List.replicate n 1 }

/-- One entry of the recomputed normalizer: the row sum, with zero pinned
to 1 (`self._mat_normalizer[zero_locations] = 1`). -/
def rowNormalizer (r : Vec) : ℚ := if r.sum = 0 then 1 else r.sum

/-- `CoreProbabilityMatrix._increment_prob_mat_cell`: bump cell `(i1, i2)` by
one, then recompute the whole normalizer as the per-row sums with zero rows
replaced by 1. -/
def CoreProbabilityMatrix.increment_prob_mat_cell (P : CoreProbabilityMatrix)
    (i1 i2 : ℕ) : CoreProbabilityMatrix :=
  let row := P.core_mat.getD i1 []
  let M := P.core_mat.set i1 (row.set i2 (row.getD i2 0 + 1))
  { core_mat := M
    mat_normalizer := M.map rowNormalizer }

/-- Broadcasting `self._core_mat / self._mat_normalizer` (an `(n,1)` column
divides each row elementwise). -/
def matDivRows (m : Mat) (norm : Vec) : Mat :=
  List.zipWith (fun row nv => row.map (fun x => x / nv)) m norm

/-- Semantics of `np.dot(p, m)` for a vector `p` and matrix `m`:
entry `j` of the result is `∑ i, p i * m i j`. -/
def vecMatMul (p : Vec) (m : Mat) : Vec :=
  (List.range (m.headD []).length).map
    (fun j => (List.zipWith (fun c row => c * row.getD j 0) p m).sum)

/-- `CoreProbabilityMatrix._generate_prob_vect_from_prob_vect`.
The source's checks, in order: `prob_vector.size == shape[0]`,
`prob_vector.size == shape[1]`, `np.sum(prob_vector) == 1` (exact float
equality). The fourth assert,
`np.all((p <= 1) and (p >= 0) for p in prob_vector)`, applies `np.all` to a
generator object, which numpy treats as a single truthy scalar, so it can
never fail and contributes nothing; it is therefore omitted here. -/
def CoreProbabilityMatrix.generate_prob_vect_from_prob_vect
    (P : CoreProbabilityMatrix) (p : Vec) : Except MCError Vec :=
  if p.length ≠ P.core_mat.length then .error .invalidDistribution
  else if p.length ≠ (P.core_mat.headD []).length then .error .invalidDistribution
  else if p.sum ≠ 1 then .error .invalidDistribution
  else .ok (vecMatMul p (matDivRows P.core_mat P.mat_normalizer))

/-- The state owned by Python class `MarkovChain`. -/
structure MarkovChain (α : Type) where
  gen_alphabet : List α
  prob_mat : CoreProbabilityMatrix
deriving DecidableEq

/-- `MarkovChain._get_prob_mat_index_for_`: `np.where(i == alphabet)[0]`,
i.e. the (first) index of `i` in the alphabet. -/
def MarkovChain.get_prob_mat_index_for_ {α : Type} [DecidableEq α]
    (mc : MarkovChain α) (i : α) : ℕ :=
  mc.gen_alphabet.indexOf i

/-- `MarkovChain.update_from_edge`: asserts both endpoints are in the
alphabet, then increments the matching matrix cell. -/
def MarkovChain.update_from_edge {α : Type} [DecidableEq α]
    (mc : MarkovChain α) (e1 e2 : α) : Except MCError (MarkovChain α) :=
  if e1 ∈ mc.gen_alphabet then
    if e2 ∈ mc.gen_alphabet then
      .ok { mc with
            prob_mat := mc.prob_mat.increment_prob_mat_cell
              (mc.get_prob_mat_index_for_ e1) (mc.get_prob_mat_index_for_ e2) }
    else .error .unknownSymbol
  else .error .unknownSymbol

/-- `MarkovChain.update_from_edge_list`: folds `update_from_edge` over the
edges (edges are pairs by type, discharging the source's length-2 assert). -/
def MarkovChain.update_from_edge_list {α : Type} [DecidableEq α]
    (mc : MarkovChain α) (edges : List (α × α)) : Except MCError (MarkovChain α) :=
  edges.foldlM (fun m e => m.update_from_edge e.1 e.2) mc

/-- `MarkovChain.__init__`: asserts `len(generator_alphabet) > 0` (no
duplicate check is performed), builds an all-zero `CoreProbabilityMatrix`,
and, when an edge list is supplied, replays it. -/
def MarkovChain.mk? {α : Type} [DecidableEq α] (alphabet : List α)
    (edge_list : List (α × α)) : Except MCError (MarkovChain α) :=
  if alphabet.isEmpty then .error .invalidAlphabet
  else
    let mc : MarkovChain α := ⟨alphabet, CoreProbabilityMatrix.init alphabet.length⟩
    mc.update_from_edge_list edge_list

/-- `MarkovChain._get_equally_likely_prob_vect`: `np.ones(n) / n`. -/
def MarkovChain.get_equally_likely_prob_vect {α : Type} (mc : MarkovChain α) : Vec :=
  List.replicate mc.gen_alphabet.length (1 / (mc.gen_alphabet.length : ℚ))

/-- `MarkovChain._get_single_result_prob_vector`: asserts membership, then
`(alphabet == v).astype(int)`. -/
def MarkovChain.get_single_result_prob_vector {α : Type} [DecidableEq α]
    (mc : MarkovChain α) (v : α) : Except MCError Vec :=
  if v ∈ mc.gen_alphabet then
    .ok (mc.gen_alphabet.map (fun a => if a = v then (1 : ℚ) else 0))
  else .error .unknownSymbol

/-- `np.any(self._prob_mat._core_mat > 0)`. -/
def hasAnyPositive (m : Mat) : Prop := ∃ row ∈ m, ∃ x ∈ row, (0 : ℚ) < x

instance (m : Mat) : Decidable (hasAnyPositive m) := by
  unfold hasAnyPositive; infer_instance

/-- Body of the `for _ in range(seq_length)` loop of
`MarkovChain._generate_sequence_from_prob_vector`: draw one symbol from the
current vector, then advance the vector one Markov step (the advance runs
even on the final iteration, exactly as in the source). `k` indexes into the
oracle of uniform draws. -/
def MarkovChain.genLoop {α : Type} (mc : MarkovChain α) (us : ℕ → ℚ) :
    Vec → ℕ → ℕ → Except MCError (List α)
  | _, 0, _ => .ok []
  | p, fuel + 1, k =>
    match npChoice mc.gen_alphabet p (us k) with
    | .error e => .error e
    | .ok x =>
      match mc.prob_mat.generate_prob_vect_from_prob_vect p with
      | .error e => .error e
      | .ok p' =>
        match mc.genLoop us p' fuel (k + 1) with
        | .error e => .error e
        | .ok rest => .ok (x :: rest)

/-- `MarkovChain._generate_sequence_from_prob_vector`: in source order,
asserts some matrix cell is positive, every vector entry lies in `[0,1]`
(this one is a plain Python `all`, so it really checks), and the vector sums
to exactly 1; then runs the sampling loop. A negative `seq_length` makes
`range(seq_length)` empty, so the loop body never runs (`Int.toNat`). -/
def MarkovChain.generate_sequence_from_prob_vector {α : Type}
    (mc : MarkovChain α) (p : Vec) (seq_length : ℤ) (us : ℕ → ℚ) :
    Except MCError (List α) :=
  if ¬ hasAnyPositive mc.prob_mat.core_mat then .error .emptyModel
  else if ¬ (∀ q ∈ p, 0 ≤ q ∧ q ≤ 1) then .error .invalidDistribution
  else if p.sum ≠ 1 then .error .invalidDistribution
  else mc.genLoop us p seq_length.toNat 0

/-- `MarkovChain.generate_sequence`: start from the uniform vector
(`seq_length` is typed `ℤ`, discharging the source's `type is int` assert). -/
def MarkovChain.generate_sequence {α : Type} (mc : MarkovChain α)
    (seq_length : ℤ) (us : ℕ → ℚ) : Except MCError (List α) :=
  mc.generate_sequence_from_prob_vector mc.get_equally_likely_prob_vect seq_length us

/-- `MarkovChain.generate_sequence_starting_with_`: in source order, asserts
some matrix cell is positive, then that the start symbol is in the alphabet
(inside `_get_single_result_prob_vector`), then samples from the one-hot
vector. -/
def MarkovChain.generate_sequence_starting_with_ {α : Type} [DecidableEq α]
    (mc : MarkovChain α) (seq_start : α) (seq_length : ℤ) (us : ℕ → ℚ) :
    Except MCError (List α) :=
  if ¬ hasAnyPositive mc.prob_mat.core_mat then .error .emptyModel
  else
    match mc.get_single_result_prob_vector seq_start with
    | .error e => .error e
    | .ok p => mc.generate_sequence_from_prob_vector p seq_length us

/-- The model states reachable by the program: a fresh `n × n` matrix
followed by any sequence of in-range `_increment_prob_mat_cell` calls. -/
inductive Reachable (n : ℕ) : CoreProbabilityMatrix → Prop where
  | init : Reachable n (CoreProbabilityMatrix.init n)
  | step {P : CoreProbabilityMatrix} {i1 i2 : ℕ} :
      Reachable n P → i1 < n → i2 < n →
      Reachable n (P.increment_prob_mat_cell i1 i2)

/-- The concrete model of the spec's worked scenario: alphabet `('a','b')`
trained on edges `[(a,a),(a,b),(b,a)]`. -/
def mc0 : MarkovChain Char :=
  ⟨['a', 'b'], ⟨[[1, 1], [1, 0]], [2, 1]⟩⟩

/-- An untrained two-symbol model. -/
def mcU : MarkovChain Char :=
  ⟨['a', 'b'], CoreProbabilityMatrix.init 2⟩

/-- The constant-zero draw oracle, used for concrete runs. -/
def uZero : ℕ → ℚ := fun _ => 0

lemma getD_map_of_lt {α β : Type} (f : α → β) (l : List α) (i : ℕ) (d : β) (d' : α)
    (h : i < l.length) : (l.map f).getD i d = f (l.getD i d') := by
  induction l generalizing i with
  | nil => simp at h
  | cons a t ih =>
    cases i with
    | zero => rfl
    | succ m =>
      simp only [List.map_cons, List.getD_cons_succ]
      exact ih m (by simpa using h)

lemma getD_zipWith_of_lt {α β γ : Type} (f : α → β → γ) (l1 : List α) (l2 : List β)
    (i : ℕ) (d1 : α) (d2 : β) (d : γ) (h1 : i < l1.length) (h2 : i < l2.length) :
    (List.zipWith f l1 l2).getD i d = f (l1.getD i d1) (l2.getD i d2) := by
  induction l1 generalizing l2 i with
  | nil => simp at h1
  | cons a t ih =>
    cases l2 with
    | nil => simp at h2
    | cons b t2 =>
      cases i with
      | zero => rfl
      | succ m =>
        simp only [List.zipWith_cons_cons, List.getD_cons_succ]
        exact ih t2 m (by simpa using h1) (by simpa using h2)

lemma getD_mem_of_lt {α : Type} (l : List α) (i : ℕ) (d : α) (h : i < l.length) :
    l.getD i d ∈ l := by
  rw [List.getD_eq_getElem?_getD, List.getElem?_eq_getElem h]
  exact List.getElem_mem h

lemma sum_eq_range_getD (l : Vec) :
    l.sum = ∑ i ∈ Finset.range l.length, l.getD i 0 := by
  induction l with
  | nil => simp
  | cons a t ih =>
    rw [List.sum_cons, ih, List.length_cons, Finset.sum_range_succ']
    simp only [List.getD_cons_succ, List.getD_cons_zero]
    ring

lemma zipWith_sum_eq {α β : Type} (f : α → β → ℚ) (l1 : List α) (l2 : List β)
    (d1 : α) (d2 : β) (h : l1.length = l2.length) :
    (List.zipWith f l1 l2).sum =
      ∑ i ∈ Finset.range l1.length, f (l1.getD i d1) (l2.getD i d2) := by
  induction l1 generalizing l2 with
  | nil => simp
  | cons a t ih =>
    cases l2 with
    | nil => simp at h
    | cons b t2 =>
      rw [List.zipWith_cons_cons, List.sum_cons, List.length_cons,
        Finset.sum_range_succ', ih t2 (by simpa using h)]
      simp only [List.getD_cons_succ, List.getD_cons_zero]
      ring

lemma headD_eq_getD {α : Type} (l : List α) (d : α) : l.headD d = l.getD 0 d := by
  cases l <;> rfl

lemma vecMatMul_length (p : Vec) (m : Mat) :
    (vecMatMul p m).length = (m.headD []).length := by
  simp [vecMatMul]

lemma vecMatMul_getD (p : Vec) (m : Mat) (j : ℕ) (hj : j < (m.headD []).length) :
    (vecMatMul p m).getD j 0 =
      (List.zipWith (fun c row => c * row.getD j 0) p m).sum := by
  unfold vecMatMul
  rw [List.getD_eq_getElem?_getD, List.getElem?_map, List.getElem?_range hj]
  rfl

lemma matDivRows_length (m : Mat) (norm : Vec) :
    (matDivRows m norm).length = min m.length norm.length := by
  simp [matDivRows]

lemma matDivRows_getD {m : Mat} {norm : Vec} {i : ℕ}
    (h1 : i < m.length) (h2 : i < norm.length) :
    (matDivRows m norm).getD i [] =
      (m.getD i []).map (fun x => x / norm.getD i 0) := by
  unfold matDivRows
  exact getD_zipWith_of_lt _ m norm i [] 0 [] h1 h2

/-- Shape and sign invariant of every reachable `CoreProbabilityMatrix`
state: the matrix is `n × n` with non-negative entries and the stored
normalizer is the per-row sums with zero rows replaced by 1. -/
lemma reachable_invariant {n : ℕ} {P : CoreProbabilityMatrix}
    (h : Reachable n P) :
    P.core_mat.length = n ∧ (∀ row ∈ P.core_mat, row.length = n) ∧
    (∀ row ∈ P.core_mat, ∀ x ∈ row, 0 ≤ x) ∧
    P.mat_normalizer = P.core_mat.map rowNormalizer := by
  induction h with
  | init =>
    refine ⟨by simp [CoreProbabilityMatrix.init], ?_, ?_, ?_⟩
    · intro row hr
      rw [List.eq_of_mem_replicate hr]
      simp
    · intro row hr x hx
      rw [List.eq_of_mem_replicate hr] at hx
      rw [List.eq_of_mem_replicate hx]
    · simp [CoreProbabilityMatrix.init, List.map_replicate, rowNormalizer]
  | @step P i1 i2 _ h1 h2 ih =>
    obtain ⟨hlen, hrows, hnn, _⟩ := ih
    have hrow_mem : P.core_mat.getD i1 [] ∈ P.core_mat :=
      getD_mem_of_lt _ _ _ (by rw [hlen]; exact h1)
    have hrow_len : (P.core_mat.getD i1 []).length = n := hrows _ hrow_mem
    simp only [CoreProbabilityMatrix.increment_prob_mat_cell]
    refine ⟨by simpa using hlen, ?_, ?_, trivial⟩
    · intro row hr
      rcases List.mem_or_eq_of_mem_set hr with hmem | rfl
      · exact hrows _ hmem
      · simpa using hrow_len
    · intro row hr x hx
      rcases List.mem_or_eq_of_mem_set hr with hmem | rfl
      · exact hnn _ hmem _ hx
      · rcases List.mem_or_eq_of_mem_set hx with hmem2 | rfl
        · exact hnn _ hrow_mem _ hmem2
        · have : 0 ≤ (P.core_mat.getD i1 []).getD i2 0 := by
            by_cases hi2 : i2 < (P.core_mat.getD i1 []).length
            · exact hnn _ hrow_mem _ (getD_mem_of_lt _ _ _ hi2)
            · rw [List.getD_eq_getElem?_getD, List.getElem?_eq_none (by omega)]
              rfl
          linarith

lemma reachable_norm_len {n : ℕ} {P : CoreProbabilityMatrix}
    (h : Reachable n P) : P.mat_normalizer.length = n := by
  obtain ⟨hlen, _, _, hnorm⟩ := reachable_invariant h
  rw [hnorm, List.length_map, hlen]

lemma sum_map_div (l : Vec) (c : ℚ) : (l.map (fun x => x / c)).sum = l.sum / c := by
  induction l with
  | nil => simp
  | cons a t ih => simp [ih, add_div]

lemma rowNormalizer_pos {r : Vec} (hr : ∀ x ∈ r, 0 ≤ x) : 0 < rowNormalizer r := by
  unfold rowNormalizer
  by_cases h : r.sum = 0
  · simp [h]
  · have : 0 ≤ r.sum := List.sum_nonneg hr
    rw [if_neg h]
    exact lt_of_le_of_ne this (Ne.symm h)

/-- C2: on every reachable model state (in particular after every
`_increment_prob_mat_cell` call), each stored normalizer entry is the
corresponding row sum with a zero sum replaced by 1; hence every normalizer
entry is positive (normalization never divides by zero) and a dead-end row
(row sum 0) divides to an all-zero probability row summing to 0. -/
theorem C2_normalizer_invariant (n : ℕ) (P : CoreProbabilityMatrix)
    (hP : Reachable n P) :
    (∀ i < n, P.mat_normalizer.getD i 0 =
      (if (P.core_mat.getD i []).sum = 0 then 1 else (P.core_mat.getD i []).sum)) ∧
    (∀ i < n, 0 < P.mat_normalizer.getD i 0) ∧
    (∀ i < n, (P.core_mat.getD i []).sum = 0 →
      ((matDivRows P.core_mat P.mat_normalizer).getD i []).sum = 0) := by
  obtain ⟨hlen, hrows, hnn, hnorm⟩ := reachable_invariant hP
  have hNi : ∀ i < n, P.mat_normalizer.getD i 0 = rowNormalizer (P.core_mat.getD i []) := by
    intro i hi
    rw [hnorm]
    exact getD_map_of_lt rowNormalizer _ i 0 [] (by rw [hlen]; exact hi)
  refine ⟨fun i hi => by rw [hNi i hi]; rfl, ?_, ?_⟩
  · intro i hi
    rw [hNi i hi]
    exact rowNormalizer_pos (hnn _ (getD_mem_of_lt _ _ _ (by rw [hlen]; exact hi)))
  · intro i hi hzero
    rw [matDivRows_getD (by rw [hlen]; exact hi)
        (by rw [reachable_norm_len hP]; exact hi)]
    rw [sum_map_div, hzero, zero_div]

/-- The scenario state is reachable: it is the fresh `2 × 2` state after the
three in-range increments corresponding to the edges
`[(a,a),(a,b),(b,a)]`. -/
lemma mc0_reachable : Reachable 2 mc0.prob_mat := by
  have h : mc0.prob_mat =
      (((CoreProbabilityMatrix.init 2).increment_prob_mat_cell 0 0).increment_prob_mat_cell
          0 1).increment_prob_mat_cell 1 0 := by
    with_unfolding_all decide
  rw [h]
  exact Reachable.step
    (Reachable.step (Reachable.step Reachable.init (by norm_num) (by norm_num))
      (by norm_num) (by norm_num))
    (by norm_num) (by norm_num)

theorem C2_witness :
    (∀ i < 2, mc0.prob_mat.mat_normalizer.getD i 0 =
      (if (mc0.prob_mat.core_mat.getD i []).sum = 0 then 1
       else (mc0.prob_mat.core_mat.getD i []).sum)) ∧
    (∀ i < 2, 0 < mc0.prob_mat.mat_normalizer.getD i 0) ∧
    (∀ i < 2, (mc0.prob_mat.core_mat.getD i []).sum = 0 →
      ((matDivRows mc0.prob_mat.core_mat mc0.prob_mat.mat_normalizer).getD i []).sum = 0) :=
  C2_normalizer_invariant 2 mc0.prob_mat mc0_reachable

lemma rows_head_length {M : Mat} {n : ℕ} (hM : M.length = n)
    (hrows : ∀ row ∈ M, row.length = n) : (M.headD []).length = n := by
  cases M with
  | nil => simpa using hM
  | cons r t => exact hrows r (List.mem_cons_self r t)

lemma matDivRows_head_length {M : Mat} {N : Vec} {n : ℕ} (hM : M.length = n)
    (hrows : ∀ row ∈ M, row.length = n) (hN : N.length = n) :
    ((matDivRows M N).headD []).length = n := by
  rcases Nat.eq_zero_or_pos n with rfl | hn
  · have hMnil : M = [] := List.length_eq_zero.mp hM
    subst hMnil
    simp [matDivRows]
  · rw [headD_eq_getD, matDivRows_getD (by rw [hM]; exact hn) (by rw [hN]; exact hn),
      List.length_map]
    exact hrows _ (getD_mem_of_lt _ _ _ (by rw [hM]; exact hn))

lemma gen_prob_vect_ok {P : CoreProbabilityMatrix} {n : ℕ} {p : Vec}
    (hM : P.core_mat.length = n) (hrows : ∀ row ∈ P.core_mat, row.length = n)
    (hp : p.length = n) (hsum : p.sum = 1) :
    P.generate_prob_vect_from_prob_vect p =
      .ok (vecMatMul p (matDivRows P.core_mat P.mat_normalizer)) := by
  unfold CoreProbabilityMatrix.generate_prob_vect_from_prob_vect
  rw [if_neg (not_not_intro (show p.length = P.core_mat.length by rw [hp, hM])),
    if_neg (not_not_intro
      (show p.length = (P.core_mat.headD []).length by
        rw [hp, rows_head_length hM hrows])),
    if_neg (not_not_intro hsum)]

lemma zip_div_sum_formula {M : Mat} {N : Vec} {p : Vec} {n : ℕ}
    (hM : M.length = n) (hrows : ∀ row ∈ M, row.length = n) (hN : N.length = n)
    (hp : p.length = n) {j : ℕ} (hj : j < n) :
    (List.zipWith (fun c row => c * row.getD j 0) p (matDivRows M N)).sum =
      ∑ i ∈ Finset.range n, p.getD i 0 * ((M.getD i []).getD j 0 / N.getD i 0) := by
  rw [zipWith_sum_eq _ p (matDivRows M N) 0 []
    (by rw [hp, matDivRows_length, hM, hN, Nat.min_self]), hp]
  refine Finset.sum_congr rfl (fun i hi => ?_)
  have hi' : i < n := Finset.mem_range.mp hi
  rw [matDivRows_getD (by rw [hM]; exact hi') (by rw [hN]; exact hi'),
    getD_map_of_lt _ _ j 0 0
      (by rw [hrows _ (getD_mem_of_lt _ _ _ (by rw [hM]; exact hi'))]; exact hj)]

lemma vecMatMul_div_entry {M : Mat} {N : Vec} {p : Vec} {n : ℕ}
    (hM : M.length = n) (hrows : ∀ row ∈ M, row.length = n) (hN : N.length = n)
    (hp : p.length = n) {j : ℕ} (hj : j < n) :
    (vecMatMul p (matDivRows M N)).getD j 0 =
      ∑ i ∈ Finset.range n, p.getD i 0 * ((M.getD i []).getD j 0 / N.getD i 0) := by
  rw [vecMatMul_getD p _ j
    (by rw [matDivRows_head_length hM hrows hN]; exact hj)]
  exact zip_div_sum_formula hM hrows hN hp hj

/-- C1: on every `n × n` model state, for every probability vector of length
`n` with entries in `[0,1]` summing to 1, `_generate_prob_vect_from_prob_vect`
succeeds and returns exactly the vector–matrix product of the input with the
count matrix divided row-wise by the stored normalizer. -/
theorem C1_next_distribution_matrix_product (P : CoreProbabilityMatrix) (n : ℕ)
    (p : Vec) (hM : P.core_mat.length = n)
    (hrows : ∀ row ∈ P.core_mat, row.length = n)
    (hN : P.mat_normalizer.length = n) (hp : p.length = n)
    (_hrange : ∀ q ∈ p, 0 ≤ q ∧ q ≤ 1) (hsum : p.sum = 1) :
    ∃ v, P.generate_prob_vect_from_prob_vect p = .ok v ∧ v.length = n ∧
      ∀ j < n, v.getD j 0 =
        ∑ i ∈ Finset.range n,
          p.getD i 0 *
            ((P.core_mat.getD i []).getD j 0 / P.mat_normalizer.getD i 0) := by
  refine ⟨_, gen_prob_vect_ok hM hrows hp hsum, ?_, ?_⟩
  · rw [vecMatMul_length, matDivRows_head_length hM hrows hN]
  · intro j hj
    exact vecMatMul_div_entry hM hrows hN hp hj

theorem C1_witness :
    ∃ v, mc0.prob_mat.generate_prob_vect_from_prob_vect [1/2, 1/2] = .ok v ∧
      v.length = 2 ∧
      ∀ j < 2, v.getD j 0 =
        ∑ i ∈ Finset.range 2,
          (([1/2, 1/2] : Vec).getD i 0) *
            ((mc0.prob_mat.core_mat.getD i []).getD j 0 /
              mc0.prob_mat.mat_normalizer.getD i 0) :=
  C1_next_distribution_matrix_product mc0.prob_mat 2 [1/2, 1/2]
    (by with_unfolding_all decide) (by with_unfolding_all decide)
    (by with_unfolding_all decide) (by with_unfolding_all decide)
    (by with_unfolding_all decide) (by with_unfolding_all decide)

/-- C10: on every reachable model state, feeding
`_generate_prob_vect_from_prob_vect` a probability vector of matching length
with entries in `[0,1]` summing to 1 succeeds, and the returned vector has
every entry in `[0,1]` and sums to at most 1: no probability mass is
created. -/
theorem C10_next_distribution_no_mass_created (n : ℕ) (P : CoreProbabilityMatrix)
    (hP : Reachable n P) (p : Vec) (hp : p.length = n)
    (hrange : ∀ q ∈ p, 0 ≤ q ∧ q ≤ 1) (hsum : p.sum = 1) :
    ∃ v, P.generate_prob_vect_from_prob_vect p = .ok v ∧
      (∀ x ∈ v, 0 ≤ x ∧ x ≤ 1) ∧ v.sum ≤ 1 := by
  obtain ⟨hM, hrows, hnn, hnorm⟩ := reachable_invariant hP
  have hN : P.mat_normalizer.length = n := reachable_norm_len hP
  have hrow_mem : ∀ i, i < n → P.core_mat.getD i [] ∈ P.core_mat :=
    fun i hi => getD_mem_of_lt _ _ _ (by rw [hM]; exact hi)
  have hNi : ∀ i, i < n →
      P.mat_normalizer.getD i 0 = rowNormalizer (P.core_mat.getD i []) := by
    intro i hi
    rw [hnorm]
    exact getD_map_of_lt rowNormalizer _ i 0 [] (by rw [hM]; exact hi)
  have hNpos : ∀ i, i < n → 0 < P.mat_normalizer.getD i 0 := by
    intro i hi
    rw [hNi i hi]
    exact rowNormalizer_pos (hnn _ (hrow_mem i hi))
  have hentry_nonneg : ∀ i, i < n → ∀ j : ℕ, 0 ≤ (P.core_mat.getD i []).getD j 0 := by
    intro i hi j
    by_cases hj : j < (P.core_mat.getD i []).length
    · exact hnn _ (hrow_mem i hi) _ (getD_mem_of_lt _ _ _ hj)
    · rw [List.getD_eq_getElem?_getD, List.getElem?_eq_none (by omega)]
      rfl
  have hentry_le : ∀ i, i < n → ∀ j : ℕ,
      (P.core_mat.getD i []).getD j 0 ≤ P.mat_normalizer.getD i 0 := by
    intro i hi j
    rw [hNi i hi]
    unfold rowNormalizer
    by_cases hj : j < (P.core_mat.getD i []).length
    · have hle : (P.core_mat.getD i []).getD j 0 ≤ (P.core_mat.getD i []).sum :=
        List.single_le_sum (hnn _ (hrow_mem i hi)) _ (getD_mem_of_lt _ _ _ hj)
      by_cases hs : (P.core_mat.getD i []).sum = 0
      · rw [if_pos hs]
        rw [hs] at hle
        linarith
      · rw [if_neg hs]
        exact hle
    · have h0 : (P.core_mat.getD i []).getD j 0 = 0 := by
        rw [List.getD_eq_getElem?_getD, List.getElem?_eq_none (by omega)]
        rfl
      rw [h0]
      by_cases hs : (P.core_mat.getD i []).sum = 0
      · rw [if_pos hs]
        norm_num
      · rw [if_neg hs]
        exact List.sum_nonneg (hnn _ (hrow_mem i hi))
  have hq01 : ∀ i, i < n → ∀ j : ℕ,
      0 ≤ (P.core_mat.getD i []).getD j 0 / P.mat_normalizer.getD i 0 ∧
      (P.core_mat.getD i []).getD j 0 / P.mat_normalizer.getD i 0 ≤ 1 := by
    intro i hi j
    refine ⟨div_nonneg (hentry_nonneg i hi j) (le_of_lt (hNpos i hi)), ?_⟩
    rw [div_le_one (hNpos i hi)]
    exact hentry_le i hi j
  have hp_nonneg : ∀ i, i < n → 0 ≤ p.getD i 0 := fun i hi =>
    (hrange _ (getD_mem_of_lt _ _ _ (by rw [hp]; exact hi))).1
  have hpsum : ∑ i ∈ Finset.range n, p.getD i 0 = 1 := by
    rw [← hp, ← sum_eq_range_getD, hsum]
  have hSj01 : ∀ j, j < n →
      0 ≤ (∑ i ∈ Finset.range n,
        p.getD i 0 * ((P.core_mat.getD i []).getD j 0 / P.mat_normalizer.getD i 0)) ∧
      (∑ i ∈ Finset.range n,
        p.getD i 0 * ((P.core_mat.getD i []).getD j 0 / P.mat_normalizer.getD i 0)) ≤ 1 := by
    intro j _
    constructor
    · refine Finset.sum_nonneg (fun i hi => ?_)
      exact mul_nonneg (hp_nonneg i (Finset.mem_range.mp hi))
        (hq01 i (Finset.mem_range.mp hi) j).1
    · calc (∑ i ∈ Finset.range n,
            p.getD i 0 * ((P.core_mat.getD i []).getD j 0 / P.mat_normalizer.getD i 0))
          ≤ ∑ i ∈ Finset.range n, p.getD i 0 := by
            refine Finset.sum_le_sum (fun i hi => ?_)
            exact mul_le_of_le_one_right (hp_nonneg i (Finset.mem_range.mp hi))
              (hq01 i (Finset.mem_range.mp hi) j).2
        _ = 1 := hpsum
  refine ⟨_, gen_prob_vect_ok hM hrows hp hsum, ?_, ?_⟩
  · intro x hx
    have hcols : ((matDivRows P.core_mat P.mat_normalizer).headD []).length = n :=
      matDivRows_head_length hM hrows hN
    unfold vecMatMul at hx
    rcases List.mem_map.mp hx with ⟨j, hj, rfl⟩
    have hjn : j < n := by
      rw [← hcols]
      exact List.mem_range.mp hj
    rw [zip_div_sum_formula hM hrows hN hp hjn]
    exact hSj01 j hjn
  · have hlenv : (vecMatMul p (matDivRows P.core_mat P.mat_normalizer)).length = n := by
      rw [vecMatMul_length, matDivRows_head_length hM hrows hN]
    rw [sum_eq_range_getD, hlenv]
    have hrowdiv : ∀ i, i < n →
        (∑ j ∈ Finset.range n,
          (P.core_mat.getD i []).getD j 0 / P.mat_normalizer.getD i 0) ≤ 1 := by
      intro i hi
      rw [← Finset.sum_div]
      have hsum_row : (P.core_mat.getD i []).sum =
          ∑ j ∈ Finset.range n, (P.core_mat.getD i []).getD j 0 := by
        rw [sum_eq_range_getD, hrows _ (hrow_mem i hi)]
      rw [← hsum_row, hNi i hi]
      unfold rowNormalizer
      by_cases hs : (P.core_mat.getD i []).sum = 0
      · rw [if_pos hs, hs]
        norm_num
      · rw [if_neg hs, div_self hs]
    calc (∑ j ∈ Finset.range n,
            (vecMatMul p (matDivRows P.core_mat P.mat_normalizer)).getD j 0)
        = ∑ j ∈ Finset.range n, ∑ i ∈ Finset.range n,
            p.getD i 0 * ((P.core_mat.getD i []).getD j 0 / P.mat_normalizer.getD i 0) := by
          refine Finset.sum_congr rfl (fun j hj => ?_)
          exact vecMatMul_div_entry hM hrows hN hp (Finset.mem_range.mp hj)
      _ = ∑ i ∈ Finset.range n, ∑ j ∈ Finset.range n,
            p.getD i 0 * ((P.core_mat.getD i []).getD j 0 / P.mat_normalizer.getD i 0) :=
          Finset.sum_comm
      _ = ∑ i ∈ Finset.range n, p.getD i 0 * (∑ j ∈ Finset.range n,
            (P.core_mat.getD i []).getD j 0 / P.mat_normalizer.getD i 0) := by
          refine Finset.sum_congr rfl (fun i _ => ?_)
          rw [Finset.mul_sum]
      _ ≤ ∑ i ∈ Finset.range n, p.getD i 0 := by
          refine Finset.sum_le_sum (fun i hi => ?_)
          have hin : i < n := Finset.mem_range.mp hi
          refine mul_le_of_le_one_right (hp_nonneg i hin) (hrowdiv i hin)
      _ = 1 := hpsum

theorem C10_witness :
    ∃ v, mc0.prob_mat.generate_prob_vect_from_prob_vect [1, 0] = .ok v ∧
      (∀ x ∈ v, 0 ≤ x ∧ x ≤ 1) ∧ v.sum ≤ 1 :=
  C10_next_distribution_no_mass_created 2 mc0.prob_mat mc0_reachable [1, 0]
    (by with_unfolding_all decide) (by with_unfolding_all decide)
    (by with_unfolding_all decide)

lemma equally_likely_mem {α : Type} (mc : MarkovChain α)
    (hne : mc.gen_alphabet ≠ []) :
    ∀ q ∈ mc.get_equally_likely_prob_vect, 0 ≤ q ∧ q ≤ 1 := by
  intro q hq
  rw [List.eq_of_mem_replicate hq]
  have hn : 0 < mc.gen_alphabet.length := List.length_pos.mpr hne
  have hn1 : (1 : ℚ) ≤ (mc.gen_alphabet.length : ℚ) := by exact_mod_cast hn
  constructor
  · positivity
  · rw [div_le_one (by linarith)]
    linarith

lemma equally_likely_sum {α : Type} (mc : MarkovChain α)
    (hne : mc.gen_alphabet ≠ []) :
    mc.get_equally_likely_prob_vect.sum = 1 := by
  unfold MarkovChain.get_equally_likely_prob_vect
  have hn : 0 < mc.gen_alphabet.length := List.length_pos.mpr hne
  have hz : ((mc.gen_alphabet.length : ℚ)) ≠ 0 := by exact_mod_cast hn.ne'
  rw [List.sum_replicate, nsmul_eq_mul]
  field_simp

lemma onehot_mem {α : Type} [DecidableEq α] (A : List α) (v : α) :
    ∀ q ∈ A.map (fun a => if a = v then (1 : ℚ) else 0), 0 ≤ q ∧ q ≤ 1 := by
  intro q hq
  rcases List.mem_map.mp hq with ⟨a, _, rfl⟩
  by_cases h : a = v <;> norm_num [h]

lemma onehot_sum {α : Type} [DecidableEq α] (A : List α) (v : α) :
    (A.map (fun a => if a = v then (1 : ℚ) else 0)).sum = A.count v := by
  induction A with
  | nil => simp
  | cons a t ih =>
    rcases eq_or_ne a v with h | h
    · simp [h, List.count_cons, ih, add_comm]
    · simp [h, List.count_cons, ih]

lemma onehot_sum_one {α : Type} [DecidableEq α] (A : List α) (v : α)
    (hnd : A.Nodup) (hv : v ∈ A) :
    (A.map (fun a => if a = v then (1 : ℚ) else 0)).sum = 1 := by
  rw [onehot_sum, List.count_eq_one_of_mem hnd hv, Nat.cast_one]

/-- C7: on alphabet `('a','b')`, recording the edges
`[(a,a),(a,b),(b,a)]` on a fresh model yields the count matrix
`[[1,1],[1,0]]`, whose normalized row for `a` is `[0.5, 0.5]` and whose
normalized row for `b` is `[1, 0]`. -/
theorem C7_scenario_matrix :
    MarkovChain.mk? ['a', 'b'] [('a', 'a'), ('a', 'b'), ('b', 'a')] = .ok mc0 ∧
    mc0.prob_mat.core_mat = [[1, 1], [1, 0]] ∧
    matDivRows mc0.prob_mat.core_mat mc0.prob_mat.mat_normalizer =
      [[1/2, 1/2], [1, 0]] := by
  with_unfolding_all decide

/-- C3 counterexample: the constructor accepts the duplicate-containing
alphabet `['a','a']`, contradicting the claim that a duplicate fails with
`InvalidAlphabetError`. -/
theorem C3_counterexample_duplicate_accepted :
    MarkovChain.mk? ['a', 'a'] ([] : List (Char × Char)) =
      .ok ⟨['a', 'a'], CoreProbabilityMatrix.init 2⟩ := by
  with_unfolding_all decide

/-- C3 amended: with no initial edge list, constructing the model fails
(`InvalidAlphabetError`) exactly when the symbol collection is empty; a
collection containing duplicates is accepted, since the source performs no
duplicate check. -/
theorem C3_amended_empty_only {α : Type} [DecidableEq α] (A : List α) :
    MarkovChain.mk? A ([] : List (α × α)) =
      if A.isEmpty then .error .invalidAlphabet
      else .ok ⟨A, CoreProbabilityMatrix.init A.length⟩ := by
  unfold MarkovChain.mk?
  by_cases h : A.isEmpty
  · rw [if_pos h, if_pos h]
  · rw [if_neg h, if_neg h]
    rfl

/-- C4: on a model whose count matrix has no positive cell (no transition
ever recorded), both `generate_sequence` and
`generate_sequence_starting_with_` fail with the empty-model error, for every
alphabet, requested length, start symbol and draw oracle. -/
theorem C4_untrained_model_rejected {α : Type} [DecidableEq α]
    (mc : MarkovChain α) (len : ℤ) (us : ℕ → ℚ) (start : α)
    (h : ¬ hasAnyPositive mc.prob_mat.core_mat) :
    mc.generate_sequence len us = .error .emptyModel ∧
    mc.generate_sequence_starting_with_ start len us = .error .emptyModel := by
  constructor
  · simp [MarkovChain.generate_sequence,
      MarkovChain.generate_sequence_from_prob_vector, h]
  · simp [MarkovChain.generate_sequence_starting_with_, h]

theorem C4_witness :
    ¬ hasAnyPositive mcU.prob_mat.core_mat ∧
    (mcU.generate_sequence 5 uZero = .error .emptyModel ∧
     mcU.generate_sequence_starting_with_ 'a' 5 uZero = .error .emptyModel) :=
  ⟨by decide, C4_untrained_model_rejected mcU 5 uZero 'a' (by decide)⟩

/-- C5: the probability vector `[2, -1]` has the right size and sums to 1
but has entries far outside `[0, 1]`; on the trained scenario model the code
accepts it and returns a result instead of raising, because the source's
range assert applies `np.all` to a generator expression, which is always
truthy. This contradicts the claim and the function's own docstring. -/
theorem C5_range_check_vacuous :
    mc0.prob_mat.generate_prob_vect_from_prob_vect [2, -1] = .ok [0, 1] := by
  with_unfolding_all decide

/-- C6 counterexample: on the trained scenario model, a negative requested
length does not fail with `InvalidLengthError`; `generate_sequence (-1)`
silently returns the empty sequence (`range` of a negative is empty). -/
theorem C6_counterexample_negative_length :
    mc0.generate_sequence (-1) uZero = .ok [] := by
  with_unfolding_all decide

/-- C6 amended: on a trained model over a non-empty duplicate-free alphabet,
every non-positive requested length (negative lengths included — no
`InvalidLengthError` exists in the code) makes both `generate_sequence` and
`generate_sequence_starting_with_` succeed with the empty sequence. -/
theorem C6_amended_nonpos_length_empty {α : Type} [DecidableEq α]
    (mc : MarkovChain α) (start : α) (len : ℤ) (us : ℕ → ℚ)
    (hpos : hasAnyPositive mc.prob_mat.core_mat)
    (hne : mc.gen_alphabet ≠ [])
    (hnd : mc.gen_alphabet.Nodup)
    (hstart : start ∈ mc.gen_alphabet)
    (hlen : len ≤ 0) :
    mc.generate_sequence len us = .ok [] ∧
    mc.generate_sequence_starting_with_ start len us = .ok [] := by
  have htn : len.toNat = 0 := Int.toNat_eq_zero.mpr hlen
  constructor
  · unfold MarkovChain.generate_sequence
      MarkovChain.generate_sequence_from_prob_vector
    rw [if_neg (not_not_intro hpos),
      if_neg (not_not_intro (equally_likely_mem mc hne)),
      if_neg (not_not_intro (equally_likely_sum mc hne)), htn]
    rfl
  · unfold MarkovChain.generate_sequence_starting_with_
      MarkovChain.get_single_result_prob_vector
    rw [if_neg (not_not_intro hpos), if_pos hstart]
    change mc.generate_sequence_from_prob_vector
      (mc.gen_alphabet.map (fun a => if a = start then (1 : ℚ) else 0)) len us =
      Except.ok []
    unfold MarkovChain.generate_sequence_from_prob_vector
    rw [if_neg (not_not_intro hpos),
      if_neg (not_not_intro (onehot_mem mc.gen_alphabet start)),
      if_neg (not_not_intro (onehot_sum_one mc.gen_alphabet start hnd hstart)),
      htn]
    rfl

theorem C6_witness :
    mc0.generate_sequence (-2) uZero = .ok [] ∧
    mc0.generate_sequence_starting_with_ 'b' (-2) uZero = .ok [] :=
  C6_amended_nonpos_length_empty mc0 'b' (-2) uZero
    (by decide) (by decide) (by decide) (by decide) (by decide)

lemma antitone_downward {b : ℕ → Bool} (hb : ∀ k, b (k + 1) = true → b k = true) :
    ∀ m k, k ≤ m → b m = true → b k = true := by
  intro m
  induction m with
  | zero =>
    intro k hk hbm
    have : k = 0 := Nat.le_zero.mp hk
    subst this
    exact hbm
  | succ m ih =>
    intro k hk hbm
    rcases Nat.lt_succ_iff_lt_or_eq.mp (Nat.lt_succ_of_le hk) with h | h
    · exact ih k (Nat.lt_succ_iff.mp h) (hb m hbm)
    · subst h
      exact hbm

/-- The count of satisfied indices below `n`, for a predicate that is
downward closed: it bounds `n`, everything strictly below it is satisfied,
and the count itself (when below `n`) is not. -/
lemma filter_count_antitone {b : ℕ → Bool} (hb : ∀ k, b (k + 1) = true → b k = true)
    (n : ℕ) :
    ((List.range n).filter b).length ≤ n ∧
    (∀ k, k < ((List.range n).filter b).length → b k = true) ∧
    (((List.range n).filter b).length < n →
      b ((List.range n).filter b).length = false) := by
  induction n with
  | zero => simp
  | succ n ih =>
    obtain ⟨ih1, ih2, ih3⟩ := ih
    have hsplit : ((List.range (n + 1)).filter b).length =
        ((List.range n).filter b).length + (if b n = true then 1 else 0) := by
      rw [List.range_succ, List.filter_append, List.length_append]
      by_cases hbn : b n = true <;> simp [hbn]
    by_cases hbn : b n = true
    · have hall : ∀ k, k < n → b k = true := fun k hk =>
        antitone_downward hb n k (le_of_lt hk) hbn
      have hfull : ((List.range n).filter b).length = n := by
        rw [List.filter_eq_self.mpr (fun a ha => hall a (List.mem_range.mp ha)),
          List.length_range]
      rw [hsplit, hfull, if_pos hbn]
      refine ⟨le_refl _, ?_, ?_⟩
      · intro k hk
        rcases Nat.lt_succ_iff_lt_or_eq.mp hk with h | h
        · exact hall k h
        · subst h
          exact hbn
      · intro h
        omega
    · have hlen : ((List.range (n + 1)).filter b).length =
          ((List.range n).filter b).length := by
        rw [hsplit, if_neg hbn]
        omega
      rw [hlen]
      refine ⟨Nat.le_succ_of_le ih1, ih2, fun _ => ?_⟩
      rcases Nat.lt_or_ge ((List.range n).filter b).length n with h | h
      · exact ih3 h
      · have heq : ((List.range n).filter b).length = n := le_antisymm ih1 h
        rw [heq]
        exact Bool.eq_false_iff.mpr (fun hc => hbn hc)

lemma take_sum_mono {p : Vec} (hp : ∀ q ∈ p, 0 ≤ q) (k : ℕ) :
    (p.take (k + 1)).sum ≤ (p.take (k + 2)).sum := by
  have h2 : p.take (k + 2) = p.take (k + 1) ++ p[k + 1]?.toList := List.take_succ
  rw [h2, List.sum_append]
  have hnn : 0 ≤ (p[k + 1]?.toList).sum := by
    cases h : p[k + 1]? with
    | none => simp
    | some a =>
      have ha : a ∈ p := by
        apply List.get?_mem
        rw [List.get?_eq_getElem?]
        exact h
      simp [hp a ha]
  linarith

lemma take_succ_sum {p : Vec} {k : ℕ} (hk : k < p.length) :
    (p.take (k + 1)).sum = (p.take k).sum + p.getD k 0 := by
  rw [List.take_succ, List.sum_append, List.getElem?_eq_getElem hk,
    List.getD_eq_getElem?_getD, List.getElem?_eq_getElem hk]
  simp

/-- If the numpy tolerance check passed, the vector's total mass is
positive. -/
lemma sum_pos_of_atol {p : Vec} (h : ¬ atol < qabs (p.sum - 1)) : 0 < p.sum := by
  have hle := not_lt.mp h
  unfold qabs atol at hle
  split_ifs at hle with hsgn
  · linarith
  · have := not_lt.mp hsgn
    linarith

/-- A successful `npChoice` picks an index whose probability entry is
strictly positive (numpy's right-side `searchsorted` on the cumulative sums
never lands on a zero-width interval), provided the draw is
non-negative. -/
lemma npChoice_ok {α : Type} {A : List α} {p : Vec} {u : ℚ} {x : α}
    (hu : 0 ≤ u) (hok : npChoice A p u = .ok x) :
    cdfPick p u < p.length ∧ A.get? (cdfPick p u) = some x ∧
      0 < p.getD (cdfPick p u) 0 := by
  unfold npChoice at hok
  split_ifs at hok with h1 h2 h3
  cases hget : A.get? (cdfPick p u) with
  | none =>
    rw [hget] at hok
    exact absurd hok (by simp)
  | some y =>
    rw [hget] at hok
    have hyx : y = x := Except.ok.inj hok
    subst hyx
    have hltA : cdfPick p u < A.length := (List.get?_eq_some.mp hget).1
    have hlt : cdfPick p u < p.length := by rw [not_not.mp h1]; exact hltA
    have ht : 0 < p.sum := sum_pos_of_atol h3
    have hanti : ∀ k,
        (fun k => decide ((p.take (k + 1)).sum / p.sum ≤ u)) (k + 1) = true →
        (fun k => decide ((p.take (k + 1)).sum / p.sum ≤ u)) k = true := by
      intro k hk
      simp only [decide_eq_true_eq] at hk ⊢
      calc (p.take (k + 1)).sum / p.sum
          ≤ (p.take (k + 2)).sum / p.sum :=
            (div_le_div_iff_of_pos_right ht).mpr (take_sum_mono h2 k)
        _ ≤ u := hk
    obtain ⟨_, hsat, hunsat⟩ := filter_count_antitone
      (b := fun k => decide ((p.take (k + 1)).sum / p.sum ≤ u)) hanti p.length
    have hcdf : ((List.range p.length).filter
        (fun k => decide ((p.take (k + 1)).sum / p.sum ≤ u))).length = cdfPick p u := rfl
    rw [hcdf] at hsat hunsat
    have hupper : u * p.sum < (p.take (cdfPick p u + 1)).sum := by
      have hfalse := hunsat hlt
      have hnot : ¬ ((p.take (cdfPick p u + 1)).sum / p.sum ≤ u) := by
        simpa using hfalse
      exact (lt_div_iff₀ ht).mp (not_le.mp hnot)
    have hlower : (p.take (cdfPick p u)).sum ≤ u * p.sum := by
      cases hcp : cdfPick p u with
      | zero => simpa using mul_nonneg hu (le_of_lt ht)
      | succ m =>
        have hsatm := hsat m (by omega)
        have hdiv : (p.take (m + 1)).sum / p.sum ≤ u := by
          simpa using hsatm
        exact (div_le_iff₀ ht).mp hdiv
    refine ⟨hlt, rfl, ?_⟩
    have hstep := take_succ_sum hlt
    linarith

lemma npChoice_ok_mem {α : Type} {A : List α} {p : Vec} {u : ℚ} {x : α}
    (h : npChoice A p u = .ok x) : x ∈ A := by
  unfold npChoice at h
  split_ifs at h
  cases hget : A.get? (cdfPick p u) with
  | none =>
    rw [hget] at h
    exact absurd h (by simp)
  | some y =>
    rw [hget] at h
    have : y = x := Except.ok.inj h
    subst this
    exact List.get?_mem hget

lemma genLoop_ok_cons {α : Type} {mc : MarkovChain α} {us : ℕ → ℚ} {p : Vec}
    {fuel k : ℕ} {s : List α} (h : mc.genLoop us p (fuel + 1) k = .ok s) :
    ∃ x rest, npChoice mc.gen_alphabet p (us k) = .ok x ∧ s = x :: rest := by
  simp only [MarkovChain.genLoop] at h
  split at h
  · exact absurd h (by simp)
  · rename_i x hc
    split at h
    · exact absurd h (by simp)
    · rename_i p2 hp2
      split at h
      · exact absurd h (by simp)
      · rename_i rest hr
        exact ⟨x, rest, hc, (Except.ok.inj h).symm⟩

lemma genLoop_ok_spec {α : Type} (mc : MarkovChain α) (us : ℕ → ℚ) :
    ∀ (fuel k : ℕ) (p : Vec) (s : List α),
      mc.genLoop us p fuel k = .ok s →
      s.length = fuel ∧ ∀ x ∈ s, x ∈ mc.gen_alphabet := by
  intro fuel
  induction fuel with
  | zero =>
    intro k p s h
    simp only [MarkovChain.genLoop] at h
    have hnil : ([] : List α) = s := Except.ok.inj h
    subst hnil
    simp
  | succ fuel ih =>
    intro k p s h
    simp only [MarkovChain.genLoop] at h
    split at h
    · exact absurd h (by simp)
    · rename_i x hc
      split at h
      · exact absurd h (by simp)
      · rename_i p2 hp2
        split at h
        · exact absurd h (by simp)
        · rename_i rest hr
          have hs : x :: rest = s := Except.ok.inj h
          subst hs
          obtain ⟨hl, hm⟩ := ih (k + 1) p2 rest hr
          refine ⟨by simp [hl], ?_⟩
          intro y hy
          rcases List.mem_cons.mp hy with rfl | hy2
          · exact npChoice_ok_mem hc
          · exact hm y hy2

/-- C8: whatever the (non-negative) first draw and however later draws go,
every sequence successfully returned by `generate_sequence_starting_with_`
for a requested length of at least 1 has the requested start symbol as its
first element: the first sample is taken from the one-hot vector at the
start symbol, and inverse-CDF sampling never selects a zero-probability
index. -/
theorem C8_generate_from_starts_with_start {α : Type} [DecidableEq α]
    (mc : MarkovChain α) (start : α) (len : ℤ) (us : ℕ → ℚ) (s : List α)
    (hu : 0 ≤ us 0) (hlen : 1 ≤ len)
    (hok : mc.generate_sequence_starting_with_ start len us = .ok s) :
    s.head? = some start := by
  unfold MarkovChain.generate_sequence_starting_with_ at hok
  split_ifs at hok with h1
  cases hm : mc.get_single_result_prob_vector start with
  | error e =>
    rw [hm] at hok
    exact absurd hok (by simp)
  | ok pvec =>
    rw [hm] at hok
    replace hok : mc.generate_sequence_from_prob_vector pvec len us = .ok s := hok
    unfold MarkovChain.get_single_result_prob_vector at hm
    split_ifs at hm with h2
    have hpvec : pvec =
        mc.gen_alphabet.map (fun a => if a = start then (1 : ℚ) else 0) :=
      (Except.ok.inj hm).symm
    subst hpvec
    unfold MarkovChain.generate_sequence_from_prob_vector at hok
    split_ifs at hok with h3 h4
    have htn : len.toNat ≠ 0 := by omega
    obtain ⟨m, hm2⟩ := Nat.exists_eq_succ_of_ne_zero htn
    rw [hm2] at hok
    obtain ⟨x, rest, hc, rfl⟩ := genLoop_ok_cons hok
    obtain ⟨hlt, hget, hpos⟩ := npChoice_ok hu hc
    have hltA : cdfPick (mc.gen_alphabet.map
        (fun a => if a = start then (1 : ℚ) else 0)) (us 0) <
        mc.gen_alphabet.length := by
      rw [← List.length_map mc.gen_alphabet
        (fun a => if a = start then (1 : ℚ) else 0)]
      exact hlt
    rw [getD_map_of_lt _ _ _ 0 start hltA] at hpos
    have hise : mc.gen_alphabet.getD (cdfPick (mc.gen_alphabet.map
        (fun a => if a = start then (1 : ℚ) else 0)) (us 0)) start = start := by
      by_contra hne
      rw [if_neg hne] at hpos
      exact lt_irrefl 0 hpos
    have hxval : x = mc.gen_alphabet.getD (cdfPick (mc.gen_alphabet.map
        (fun a => if a = start then (1 : ℚ) else 0)) (us 0)) start := by
      rw [List.getD_eq_getElem?_getD, ← List.get?_eq_getElem?, hget]
      rfl
    rw [List.head?_cons, hxval, hise]

theorem C8_witness : (['b', 'a', 'a'] : List Char).head? = some 'b' :=
  C8_generate_from_starts_with_start mc0 'b' 3 uZero ['b', 'a', 'a']
    (le_refl 0) (by norm_num) (by with_unfolding_all decide)

/-- C9: every successful `generate_sequence` call with a non-negative
requested length returns exactly that many items, each of them an element of
the alphabet. -/
theorem C9_generate_length_and_membership {α : Type} (mc : MarkovChain α)
    (len : ℤ) (us : ℕ → ℚ) (s : List α) (hlen : 0 ≤ len)
    (hok : mc.generate_sequence len us = .ok s) :
    (s.length : ℤ) = len ∧ ∀ x ∈ s, x ∈ mc.gen_alphabet := by
  unfold MarkovChain.generate_sequence
    MarkovChain.generate_sequence_from_prob_vector at hok
  split_ifs at hok with h1 h2 h3
  obtain ⟨hl, hm⟩ := genLoop_ok_spec mc us len.toNat 0 _ s hok
  refine ⟨?_, hm⟩
  rw [hl]
  omega

theorem C9_witness :
    ((['a', 'a'] : List Char).length : ℤ) = 2 ∧
    ∀ x ∈ (['a', 'a'] : List Char), x ∈ mc0.gen_alphabet :=
  C9_generate_length_and_membership mc0 2 uZero ['a', 'a']
    (by norm_num) (by with_unfolding_all decide)

end MakeMarkov
